import Mathlib

/-!
Verification development for the `issue-auth-tool` repository: a shallow
embedding of the classification / validation / repair / persistence pipeline
(`src/issues_auth_tool.py`) and its utilities (`src/utils.py`), together with
theorems settling the specification claims.

External collaborators (GitHub feed, LLM completion service, terminal editor,
the `jsonschema` library's traversal, Python's `json` parser and `re` engine)
are modelled as explicit oracle parameters; everything the repository's own
code decides (control flow, guards, state updates) is translated faithfully.
-/

namespace IssueTool

/-- JSON-like values, enough to represent classification records
(`type` / `reason` / `mcp` / `num` fields; the only arrays such records
carry are arrays of strings, the `mcp` instruction list). -/
inductive JVal where
  | jnull
  | jbool (b : Bool)
  | jint (n : Int)
  | jstr (s : String)
  | jarr (xs : List String)
  deriving DecidableEq

/-- A parsed JSON object (Python `dict`), as an ordered field list. -/
abbrev Rec := List (String × JVal)

/-- `d |= {'num': n}` — overwrite the `num` key in place, or append it. -/
def setNum (r : Rec) (n : Int) : Rec :=
  if (r.lookup "num").isSome then
    r.map (fun kv => if kv.1 = "num" then ("num", JVal.jint n) else kv)
  else r ++ [("num", JVal.jint n)]

/-- The on-disk store, keyed by post number: one file `<num>.json` holding
one serialized record.  The only write the reachable code path performs is
a full record, so an entry is a `Rec`. -/
abbrev Store := List (Int × Rec)

/-- Per-post oracle input to one iteration of `run`'s loop: `parseResult`
is the outcome of `json.loads` on the model's response (`none` =
`JSONDecodeError`).  No operator input is modelled because the repair
prompt is unreachable (see `runStep`). -/
structure PostInput where
  title : String
  num : Int
  text : String
  parseResult : Option Rec

/-- Result of one loop iteration of `run`: either continue with the new
store, or abort the whole run — an uncaught exception propagates out of
`run()` — leaving the store as it was. -/
inductive StepOutcome where
  | next (store : Store)
  | fatal (store : Store)
  deriving DecidableEq

/-- The write section at the bottom of the loop body
(`src/issues_auth_tool.py:167-177`).  It is reached only on the fully
successful path, where `ret` is the validated dict with `num` merged in —
non-`None` and truthy — so `if ret is not None` passes and
`dumps(ret or corrected)` serializes `ret` (the short-circuit never reads
`corrected`).  `open(..., 'x')` on an existing file raises
`FileExistsError`, which `suppress` swallows: the store is unchanged and
the loop continues. -/
def writeSection (store : Store) (num : Int) (ret : Rec) : StepOutcome :=
  if (store.lookup num).isSome then .next store
  else .next ((num, ret) :: store)

/-- One iteration of the `for post in ...` loop of `run`
(`src/issues_auth_tool.py:141-177`).

`ret = loads(...)`; `validate(...)`; on success `ret |= {'num':
post['num']}` and the write section runs.  When `loads` raises
`JSONDecodeError` or `validate` raises `ValidationError`, the handler
`except DecodeError as e:` is evaluated — but `DecodeError`
(`issues_auth_tool.py:19`) is a PEP 695 `type` alias, a
`typing.TypeAliasType` rather than an exception class, so CPython raises
`TypeError: catching classes that do not inherit from BaseException is
not allowed` at match time.  Nothing catches that `TypeError`: the
prompt, `edit_json`, and the write section are never reached, and `run`
aborts with the store unchanged. -/
def runStep (valid : Rec → Bool) (store : Store) (p : PostInput) : StepOutcome :=
  match p.parseResult with
  | none => .fatal store
  | some r =>
    if valid r then writeSection store p.num (setNum r p.num)
    else .fatal store

/-- The whole `run` loop over a list of posts; a fatal step aborts the run
with whatever is on disk at that point. -/
def runPosts (valid : Rec → Bool) : List PostInput → Store → Store
  | [], store => store
  | p :: rest, store =>
    match runStep valid store p with
    | .next store' => runPosts valid rest store'
    | .fatal store' => store'

/-- The ignore set `run` seeds the next fetch with:
`int(p.stem) for p in db_path.glob('*.json')` — every num that has a file,
whether or not anything was written into it. -/
def ignoreOf (store : Store) : List Int := store.map (·.1)

/-- A raw item from `repo.get_issues(state='open')`: `pullRequest` is the
truthiness of `getattr(issue, 'pull_request', None)`, `body` is `None` or
the body string (Python's `or` also replaces an empty string). -/
structure RawIssue where
  title : String
  number : Int
  body : Option String
  pullRequest : Bool

/-- `x or default` on an optional string, with Python falsiness of `""`. -/
def orBody (s : Option String) (d : String) : String :=
  match s with
  | none => d
  | some t => if t = "" then d else t

/-- A normalized post yielded by the feed. -/
structure Post where
  title : String
  num : Int
  text : String
  deriving DecidableEq

/-- `iter_issues` inside `fetch_issues_and_discussions`
(`src/issues_auth_tool.py:66-77`): skip anything whose `pull_request`
attribute is truthy, skip ignored numbers, strip the markdown of the body
(the `re`-based `strip_markdown` is the abstract `strip` parameter). -/
def iter_issues (strip : String → String) (ignore : List Int)
    (issues : List RawIssue) : List Post :=
  issues.filterMap fun i =>
    if i.pullRequest then none
    else if ignore.contains i.number then none
    else some { title := i.title, num := i.number, text := strip (orBody i.body "(无内容)") }

/-- Possible endings of `edit_json`: a returned value (`ret none` is
Python `None`), or an uncaught exception escaping the function. -/
inductive EditResult where
  | ret (r : Option Rec)
  | crash
  deriving DecidableEq

/-- `edit_json` (`src/utils.py:70-140`), with the terminal widget and the
JSON parser as oracles: `appResult` is what `app.run()` returns
(`some text` on Ctrl-S save, `none` on Esc / Ctrl-Q cancel), `parse` is
`json.loads` (`none` = `JSONDecodeError`), `valid` is schema validation.
Cancel returns `None`.  After a save the text is parsed and validated: a
parse failure is caught at `utils.py:138-140` and returns `None`; a
`ValidationError` reaches the handler at `utils.py:135-137`, which calls
`formatter(e)` without the required `instance` argument, so a `TypeError`
escapes `edit_json` instead of any return. -/
def edit_json (parse : String → Option Rec) (valid : Rec → Bool)
    (appResult : Option String) : EditResult :=
  match appResult with
  | none => .ret none
  | some edited =>
    match parse edited with
    | none => .ret none
    | some parsed => if valid parsed then .ret (some parsed) else .crash

/-- Substring test on character lists (Python's `needle in haystack`). -/
def hasSub (hay needle : List Char) : Bool :=
  match hay with
  | [] => needle.isEmpty
  | _ :: t => needle.isPrefixOf hay || hasSub t needle

/-- The rate-limit indicator check of the retry loop
(`src/utils.py:192`): `'429' in msg or 'RESOURCE_EXHAUSTED' in msg`. -/
def isRateLimitMsg (msg : String) : Bool :=
  hasSub msg.data "429".data || hasSub msg.data "RESOURCE_EXHAUSTED".data

/-- Outcome of one invocation of the wrapped call: a value, or an exception
carrying a message. -/
inductive CallResult (α : Type) where
  | ok (v : α)
  | err (msg : String)
  deriving DecidableEq

/-- The `while True` retry loop of the rate-limit wrapper
(`src/utils.py:186-195`) run against the sequence of outcomes the wrapped
call would produce on successive invocations.  Returns the surfaced result
(`none` if the whole finite outcome sequence was consumed while still
retrying) and the number of 1-second backoff sleeps performed. -/
def retry429 {α : Type} : List (CallResult α) → Option (CallResult α) × Nat
  | [] => (none, 0)
  | .ok v :: _ => (some (.ok v), 0)
  | .err m :: rest =>
    if isRateLimitMsg m then
      let p := retry429 rest
      (p.1, p.2 + 1)
    else (some (.err m), 0)

/-- Result of applying the `rate_limit(max_calls, per_seconds)` decorator
(`src/utils.py:143-199`): with `max_calls <= 0` the bypass decorator returns
the function object itself; otherwise the function is wrapped with the
timestamp-ledger logic. -/
inductive Decorated (α β : Type) where
  | plain (f : α → β)
  | wrapped (maxCalls : Nat) (per : ℚ) (f : α → β)

/-- `rate_limit` as translated from the source's dispatch on `max_calls`. -/
def rate_limit {α β : Type} (maxCalls : Int) (per : ℚ) (f : α → β) : Decorated α β :=
  if maxCalls ≤ 0 then .plain f else .wrapped maxCalls.toNat per f

/-- `while calls and now - calls[0] > per_seconds: calls.popleft()` —
drop the leading timestamps that fell out of the window. -/
def dropOld (per now : ℚ) : List ℚ → List ℚ
  | [] => []
  | t :: rest => if per < now - t then dropOld per now rest else t :: rest

/-- The clock value after the conditional wait: `sleep_for = per_seconds -
(now - calls[0])`; `if sleep_for > 0: time.sleep(sleep_for)` and then
`now = time.time()` again.  A real sleep wakes `eps` after the requested
deadline (strictly late); without a sleep the clock read stays `now`. -/
def rlWake (per : ℚ) (cs : List ℚ) (now eps : ℚ) : ℚ :=
  if 0 < per - (now - cs.headD 0) then now + (per - (now - cs.headD 0)) + eps else now

/-- One invocation of the rate-limited wrapper, timing part
(`src/utils.py:164-183`), over exact rational time.  `now` is the clock
read at entry; drop the expired timestamps; if the window is full, wait
through `rlWake` and drop again; record the (post-wait) time and proceed.
Returns the updated timestamp deque and the recorded start time. -/
def rlStep (maxCalls : Nat) (per : ℚ) (calls : List ℚ) (now eps : ℚ) : List ℚ × ℚ :=
  if maxCalls ≤ (dropOld per now calls).length then
    (dropOld per (rlWake per (dropOld per now calls) now eps) (dropOld per now calls) ++
      [rlWake per (dropOld per now calls) now eps],
     rlWake per (dropOld per now calls) now eps)
  else (dropOld per now calls ++ [now], now)

/-- One wrapped invocation as seen by the timing model: it enters the
limiter `delta` after the previous call's recorded start (clock readings
strictly increase in real executions), and any sleep it performs overshoots
by `eps`. -/
structure RLCall where
  delta : ℚ
  eps : ℚ

/-- The sequence of recorded start times of successive wrapped invocations. -/
def rlRun (maxCalls : Nat) (per : ℚ) : List RLCall → List ℚ → ℚ → List ℚ
  | [], _, _ => []
  | c :: rest, calls, lastStart =>
    let p := rlStep maxCalls per calls (lastStart + c.delta) c.eps
    p.2 :: rlRun maxCalls per rest p.1 p.2

/-- Modelled from the spec's words for the disabled limiter ("the wrapped
call passes through untouched", "no delay is ever introduced"): every
invocation starts exactly at its arrival instant, `delta` after the
previous start, with no wait inserted and no sleep ever taken. -/
def specNoDelayStarts : List RLCall → ℚ → List ℚ
  | [], _ => []
  | c :: rest, t => (t + c.delta) :: specNoDelayStarts rest (t + c.delta)

/-- Start times of calls through a decorated function: a `plain` function
runs each call at its arrival instant; a `wrapped` one runs the ledger. -/
def decoratedStarts {α β : Type} (d : Decorated α β) (events : List RLCall) (t0 : ℚ) :
    List ℚ :=
  match d with
  | .plain _ => specNoDelayStarts events t0
  | .wrapped maxCalls per _ => rlRun maxCalls per events [] t0

/-- Mini schema universe for the reference-resolution claim: a resolved
regex sub-schema, a plain integer type, or an indirect reference. -/
inductive MiniSchema where
  | strWithPattern (pattern : String)
  | intType
  | ref (uri : String)
  deriving DecidableEq

/-- Validation errors: a reference that fails to resolve (in the code a
`FileNotFoundError` escaping `load_regex`) versus a structural mismatch
(`jsonschema.ValidationError`). -/
inductive VErr where
  | resolution (uri : String)
  | violation (msg : String)
  deriving DecidableEq

/-- `load_regex` (`src/utils.py:27-32`): strip the `regex://` scheme with
`str.replace`, read the named pattern file (the filesystem is the oracle
`files`), and build `{'type': 'string', 'pattern': contents.strip()}`;
an unknown key means `open` fails, i.e. a resolution error. -/
def load_regex (files : String → Option String) (uri : String) :
    Except VErr MiniSchema :=
  match files (uri.replace "regex://" "") with
  | some contents => .ok (.strWithPattern contents.trim)
  | none => .error (.resolution uri)

/-- Structural check of an instance against a resolved string-pattern
schema; `rxMatch` is the regex engine oracle. -/
def checkStr (rxMatch : String → String → Bool) (pat : String) (v : JVal) :
    Except VErr Unit :=
  match v with
  | .jstr s => if rxMatch pat s then .ok () else .error (.violation "pattern")
  | _ => .error (.violation "type")

/-- Structural check against the integer type. -/
def checkInt (v : JVal) : Except VErr Unit :=
  match v with
  | .jint _ => .ok ()
  | _ => .error (.violation "type")

/-- Schema validation with the pluggable `regex` resolver registered
(`src/utils.py:35-41,56-57`): a direct schema is checked structurally; a
reference is first resolved through `load_regex`, and a resolution failure
surfaces as-is, distinct from any structural violation.  The `regex`
handler only ever produces string-pattern sub-schemas, so a resolved
reference is checked as such (a nested reference cannot occur). -/
def validateMini (files : String → Option String)
    (rxMatch : String → String → Bool) (schema : MiniSchema) (v : JVal) :
    Except VErr Unit :=
  match schema with
  | .strWithPattern pat => checkStr rxMatch pat v
  | .intType => checkInt v
  | .ref uri =>
    match load_regex files uri with
    | .ok (.strWithPattern pat) => checkStr rxMatch pat v
    | .ok .intType => checkInt v
    | .ok (.ref _) => .error (.resolution uri)
    | .error e => .error e

/-- The store left behind by one loop iteration, whether it continued or
aborted. -/
def storeOf : StepOutcome → Store
  | .next s => s
  | .fatal s => s

/-- Is this outcome a rate-limited failure (the only kind the wrapper
retries)? -/
def isRLErr {α : Type} : CallResult α → Bool
  | .ok _ => false
  | .err m => isRateLimitMsg m

/-- Bool test for membership of a start time in the half-open sliding
window of length `per` starting right after `w`. -/
def inW (w per s : ℚ) : Bool := decide (w < s) && decide (s ≤ w + per)

/-- A validator accepting any record that carries a `type` field. -/
def validC1 : Rec → Bool := fun r => (r.lookup "type").isSome

/-- Post `num = 7`: the model reply is unparseable (the spec's repair
scenario). -/
def inputC1 : PostInput := { title := "A", num := 7, text := "t", parseResult := none }

/-- A parseable but schema-invalid model reply (no `reason` field). -/
def rBad : Rec := [("type", JVal.jstr "wrong")]

/-- A validator requiring a `reason` field; `rBad` fails it. -/
def validC2 : Rec → Bool := fun r => (r.lookup "reason").isSome

/-- Post `num = 11`: the reply parses but fails validation. -/
def inputC2 : PostInput := { title := "B", num := 11, text := "t", parseResult := some rBad }

/-- Post `num = 9`: the reply is unparseable (the spec's abandonment
scenario). -/
def inputC3 : PostInput := { title := "C", num := 9, text := "t", parseResult := none }

/-- An open issue numbered 9, not a pull request, for the re-offer check. -/
def rawIssue9 : RawIssue := { title := "T", number := 9, body := some "b", pullRequest := false }

/-- Parse oracle for the editor counterexample: the saved text parses to
`rBad`. -/
def parseC4 : String → Option Rec := fun s => if s = "bad" then some rBad else none

/-- The spec's end-to-end record for the happy path. -/
def recAlias : Rec :=
  [("type", JVal.jstr "alias"), ("reason", JVal.jstr "r"), ("mcp", JVal.jarr [])]

/-- Post `num = 42`: the reply parses to `recAlias`, which validates. -/
def inputOk : PostInput := { title := "A", num := 42, text := "t", parseResult := some recAlias }

/-- A store that already holds a committed record for `num = 3`. -/
def storeDup : Store := [(3, recAlias)]

/-- A later validated attempt to process post `num = 3` again. -/
def inputDup : PostInput := { title := "D", num := 3, text := "t", parseResult := some recAlias }

/-! ## Helper lemmas -/

lemma isSome_false_none {α : Type} {o : Option α} (h : o.isSome = false) : o = none := by
  cases o with
  | none => rfl
  | some v => simp at h

lemma lookup_cons_preserve {β : Type} {store : List (Int × β)} {m n : Int} {x e : β}
    (hm : store.lookup m = none) (hn : store.lookup n = some e) :
    ((m, x) :: store).lookup n = some e := by
  have hne : (n == m) = false := by
    refine beq_eq_false_iff_ne.mpr ?_
    rintro rfl
    rw [hm] at hn
    cases hn
  simp only [List.lookup, hne]
  exact hn

lemma lookup_cons_new {β : Type} {store : List (Int × β)} {m n : Int} {x e : β}
    (h : ((m, x) :: store).lookup n = some e) :
    store.lookup n = some e ∨ (n = m ∧ e = x) := by
  rw [List.lookup] at h
  cases hbeq : (n == m) with
  | true =>
    rw [hbeq] at h
    exact Or.inr ⟨beq_iff_eq.mp hbeq, (Option.some_inj.mp h).symm⟩
  | false =>
    rw [hbeq] at h
    exact Or.inl h

lemma writeSection_existing (store : Store) (num : Int) (ret : Rec)
    (h : (store.lookup num).isSome = true) :
    writeSection store num ret = .next store := by
  simp [writeSection, h]

lemma writeSection_lookup (store : Store) (num : Int) (ret : Rec)
    {n : Int} {e : Rec} (h : store.lookup n = some e) :
    (storeOf (writeSection store num ret)).lookup n = some e := by
  by_cases hs : (store.lookup num).isSome = true
  · rw [writeSection_existing store num ret hs]
    exact h
  · unfold writeSection
    rw [if_neg hs]
    exact lookup_cons_preserve (isSome_false_none (Bool.eq_false_iff.mpr hs)) h

lemma writeSection_new_entry (store : Store) (num : Int) (ret : Rec)
    {n : Int} {e : Rec}
    (h : (storeOf (writeSection store num ret)).lookup n = some e) :
    store.lookup n = some e ∨ (n = num ∧ e = ret) := by
  by_cases hs : (store.lookup num).isSome = true
  · rw [writeSection_existing store num ret hs] at h
    exact Or.inl h
  · unfold writeSection at h
    rw [if_neg hs] at h
    exact lookup_cons_new h

lemma runStep_lookup (valid : Rec → Bool) (store : Store) (p : PostInput)
    {n : Int} {e : Rec} (h : store.lookup n = some e) :
    (storeOf (runStep valid store p)).lookup n = some e := by
  unfold runStep
  rcases hpr : p.parseResult with _ | r
  · exact h
  · by_cases hv : valid r = true
    · simp only [hv, if_true]
      exact writeSection_lookup store p.num (setNum r p.num) h
    · simp only [hv, Bool.false_eq_true, if_false]
      exact h

lemma runStep_new_entry (valid : Rec → Bool) (store : Store) (p : PostInput)
    {n : Int} {e : Rec}
    (h : (storeOf (runStep valid store p)).lookup n = some e) :
    store.lookup n = some e ∨
      (n = p.num ∧ ∃ r, p.parseResult = some r ∧ valid r = true ∧ e = setNum r p.num) := by
  unfold runStep at h
  rcases hpr : p.parseResult with _ | r
  · simp only [hpr] at h
    exact Or.inl h
  · simp only [hpr] at h
    by_cases hv : valid r = true
    · rw [if_pos hv] at h
      rcases writeSection_new_entry store p.num (setNum r p.num) h with h1 | ⟨hn, he⟩
      · exact Or.inl h1
      · exact Or.inr ⟨hn, r, rfl, hv, he⟩
    · rw [if_neg hv] at h
      exact Or.inl h

lemma runPosts_preserve (valid : Rec → Bool) :
    ∀ (inputs : List PostInput) (store : Store) (n : Int) (e : Rec),
      store.lookup n = some e →
      (runPosts valid inputs store).lookup n = some e := by
  intro inputs
  induction inputs with
  | nil => intro store n e h; simpa [runPosts] using h
  | cons p rest ih =>
    intro store n e h
    have hstep := runStep_lookup valid store p h
    rw [runPosts]
    cases hout : runStep valid store p with
    | next s' =>
      rw [hout] at hstep
      exact ih s' n e hstep
    | fatal s' =>
      rw [hout] at hstep
      exact hstep

lemma runPosts_new_entry (valid : Rec → Bool) :
    ∀ (inputs : List PostInput) (store : Store) (n : Int) (e : Rec),
      (runPosts valid inputs store).lookup n = some e →
      store.lookup n = some e ∨
        ∃ p ∈ inputs, ∃ r, n = p.num ∧ p.parseResult = some r ∧ valid r = true ∧
          e = setNum r p.num := by
  intro inputs
  induction inputs with
  | nil =>
    intro store n e h
    exact Or.inl (by simpa [runPosts] using h)
  | cons p rest ih =>
    intro store n e h
    rw [runPosts] at h
    cases hout : runStep valid store p with
    | next s' =>
      rw [hout] at h
      rcases ih s' n e h with hin | ⟨q, hq, r, hr⟩
      · rcases runStep_new_entry valid store p (by rw [hout]; exact hin) with h1 | ⟨hn, r, h2⟩
        · exact Or.inl h1
        · exact Or.inr ⟨p, List.mem_cons_self p rest, r, hn, h2⟩
      · exact Or.inr ⟨q, List.mem_cons_of_mem p hq, r, hr⟩
    | fatal s' =>
      rw [hout] at h
      rcases runStep_new_entry valid store p (by rw [hout]; exact h) with h1 | ⟨hn, r, h2⟩
      · exact Or.inl h1
      · exact Or.inr ⟨p, List.mem_cons_self p rest, r, hn, h2⟩

lemma lookup_append_right {β : Type} {l2 : List (String × β)} {k : String} :
    ∀ {l1 : List (String × β)}, List.lookup k l1 = none →
      List.lookup k (l1 ++ l2) = List.lookup k l2 := by
  intro l1
  induction l1 with
  | nil => intro _; rfl
  | cons kv rest ih =>
    intro h
    obtain ⟨k1, v1⟩ := kv
    rw [List.cons_append]
    rw [List.lookup] at h ⊢
    cases hbeq : (k == k1) with
    | true =>
      rw [hbeq] at h
      exact Option.noConfusion h
    | false =>
      rw [hbeq] at h
      exact ih h

lemma lookup_map_overwrite (n : Int) :
    ∀ (r : Rec), (List.lookup "num" r).isSome = true →
      List.lookup "num"
          (r.map (fun kv => if kv.1 = "num" then ("num", JVal.jint n) else kv)) =
        some (JVal.jint n) := by
  intro r
  induction r with
  | nil => intro h; simp at h
  | cons kv rest ih =>
    intro h
    obtain ⟨k1, v1⟩ := kv
    by_cases hk : k1 = "num"
    · subst hk
      simp [List.lookup]
    · rw [List.map_cons]
      have hbeq : ("num" == k1) = false :=
        beq_eq_false_iff_ne.mpr (fun he => hk he.symm)
      rw [if_neg hk, List.lookup, hbeq]
      rw [List.lookup, hbeq] at h
      exact ih h

/-- `ret |= {'num': post['num']}` really leaves a `num` field equal to the
post's number, whether the model's record had one or not. -/
lemma setNum_num (r : Rec) (n : Int) :
    List.lookup "num" (setNum r n) = some (JVal.jint n) := by
  rw [setNum]
  by_cases h : (List.lookup "num" r).isSome = true
  · rw [if_pos h]
    exact lookup_map_overwrite n r h
  · rw [if_neg h]
    have hnone : List.lookup "num" r = none :=
      isSome_false_none (Bool.eq_false_iff.mpr h)
    rw [lookup_append_right hnone]
    rfl

lemma lookup_none_contains_false {β : Type} :
    ∀ (l : List (Int × β)) (n : Int), List.lookup n l = none →
      (l.map Prod.fst).contains n = false := by
  intro l
  induction l with
  | nil => intro n _; rfl
  | cons kv rest ih =>
    intro n h
    obtain ⟨k, v⟩ := kv
    rw [List.lookup] at h
    cases hbeq : (n == k) with
    | true =>
      rw [hbeq] at h
      exact absurd h (by simp)
    | false =>
      rw [hbeq] at h
      rw [List.map_cons, List.contains_cons, ih n h]
      simp only [Bool.or_false]
      exact hbeq

lemma retry429_surfaced_not_limited {α : Type} :
    ∀ (outcomes : List (CallResult α)) (m : String),
      (retry429 outcomes).1 = some (.err m) → isRateLimitMsg m = false := by
  intro outcomes
  induction outcomes with
  | nil => intro m h; simp [retry429] at h
  | cons r rest ih =>
    intro m h
    cases r with
    | ok v => simp [retry429] at h
    | err m' =>
      by_cases hr : isRateLimitMsg m'
      · rw [retry429] at h
        simp only [hr, if_true] at h
        exact ih m h
      · rw [retry429] at h
        simp only [hr, Bool.false_eq_true, if_false, Option.some.injEq,
          CallResult.err.injEq] at h
        rcases h with rfl
        simpa using hr

lemma retry429_first_error {α : Type} (m : String) (rest : List (CallResult α))
    (h : isRateLimitMsg m = false) :
    retry429 (.err m :: rest) = (some (.err m), 0) := by
  simp [retry429, h]

lemma retry429_all_limited {α : Type} :
    ∀ (outcomes : List (CallResult α)), outcomes.all isRLErr = true →
      retry429 outcomes = (none, outcomes.length) := by
  intro outcomes
  induction outcomes with
  | nil => intro _; rfl
  | cons r rest ih =>
    intro h
    rw [List.all_cons, Bool.and_eq_true] at h
    cases r with
    | ok v => simp [isRLErr] at h
    | err m =>
      have hm : isRateLimitMsg m = true := by simpa [isRLErr] using h.1
      rw [retry429]
      simp [hm, ih h.2]

/-! ## Claim theorems -/

/-- C1 (code bug): on the spec's repair scenario — post `num = 7`,
unparseable model output — the whole run aborts instead of repairing:
`except DecodeError` raises `TypeError` at match time because the PEP 695
alias is not an exception class, so the operator is never prompted, the
repair editor never opens, and the store receives no entry for 7 (let
alone the repaired record with `num` attached).  The spec's `Invalid →
Repaired → Committed` transition is unreachable dead code. -/
theorem c1_decode_repair_unreachable :
    runStep validC1 [] inputC1 = .fatal [] ∧
    (storeOf (runStep validC1 [] inputC1)).lookup (7 : Int) = none ∧
    runPosts validC1 [inputC1] [] = [] :=
  ⟨rfl, rfl, rfl⟩

/-- C2: every record the pipeline ever persists was already stored, or is
the model record that passed schema validation with the pipeline-attached
`num` field merged in, equal to the source post's `num`.  A record that
fails parsing or validation aborts the run before the write section (the
repair path being unreachable), so nothing unvalidated is ever persisted. -/
theorem c2_persisted_records_validated (valid : Rec → Bool)
    (inputs : List PostInput) (store : Store) (n : Int) (e : Rec)
    (h : (runPosts valid inputs store).lookup n = some e) :
    store.lookup n = some e ∨
      ∃ p ∈ inputs, ∃ r, n = p.num ∧ p.parseResult = some r ∧ valid r = true ∧
        e = setNum r p.num ∧ List.lookup "num" e = some (JVal.jint p.num) := by
  rcases runPosts_new_entry valid inputs store n e h with h1 | ⟨p, hp, r, hn, hpr, hv, he⟩
  · exact Or.inl h1
  · exact Or.inr ⟨p, hp, r, hn, hpr, hv, he, by rw [he]; exact setNum_num r p.num⟩

/-- Witness for C2: the spec's happy-path scenario, `num = 42`. -/
theorem c2_persist_witness :
    List.lookup (42 : Int) ([] : Store) = some (setNum recAlias 42) ∨
      ∃ p ∈ [inputOk], ∃ r, (42 : Int) = p.num ∧ p.parseResult = some r ∧
        validC1 r = true ∧ setNum recAlias 42 = setNum r p.num ∧
        List.lookup "num" (setNum recAlias 42) = some (JVal.jint p.num) :=
  c2_persisted_records_validated validC1 [inputOk] [] 42 (setNum recAlias 42) rfl

/-- C3: when a post's classification fails to parse or validate, no write
of any kind happens for that post's `num` — the run aborts with the store
unchanged (the repair prompt never appears, so operator declining is the
only possible outcome), the store has no entry for the `num`, and the
post is offered again by the next run's fetch because its `num` is not in
the glob-derived ignore set. -/
theorem c3_failed_post_not_blocked (valid : Rec → Bool) (store : Store)
    (p : PostInput) (strip : String → String) (i : RawIssue)
    (hfail : p.parseResult = none ∨ ∃ r, p.parseResult = some r ∧ valid r = false)
    (habs : store.lookup p.num = none)
    (hnum : i.number = p.num) (hpr : i.pullRequest = false) :
    runStep valid store p = .fatal store ∧
    (storeOf (runStep valid store p)).lookup p.num = none ∧
    { title := i.title, num := i.number, text := strip (orBody i.body "(无内容)") } ∈
      iter_issues strip (ignoreOf (storeOf (runStep valid store p))) [i] := by
  have hfatal : runStep valid store p = .fatal store := by
    rcases hfail with h0 | ⟨r, hr, hv⟩
    · simp only [runStep, h0]
    · simp only [runStep, hr]
      rw [if_neg (by simp [hv])]
  refine ⟨hfatal, ?_, ?_⟩
  · rw [hfatal]
    exact habs
  · rw [hfatal]
    show { title := i.title, num := i.number, text := strip (orBody i.body "(无内容)") } ∈
      iter_issues strip (ignoreOf store) [i]
    have hcont : (ignoreOf store).contains i.number = false := by
      rw [hnum]
      exact lookup_none_contains_false store p.num habs
    simp only [iter_issues, List.filterMap_cons, List.filterMap_nil]
    rw [if_neg (by simp [hpr]), if_neg (by simp only [hcont]; exact Bool.false_ne_true)]
    exact List.mem_singleton.mpr rfl

/-- Witness for C3: the spec's abandonment scenario, `num = 9`. -/
theorem c3_failed_witness :
    runStep validC1 [] inputC3 = .fatal [] ∧
    (storeOf (runStep validC1 [] inputC3)).lookup inputC3.num = none ∧
    ({ title := rawIssue9.title, num := rawIssue9.number,
       text := id (orBody rawIssue9.body "(无内容)") } : Post) ∈
      iter_issues id (ignoreOf (storeOf (runStep validC1 [] inputC3))) [rawIssue9] :=
  c3_failed_post_not_blocked validC1 [] inputC3 id rawIssue9 (Or.inl rfl) rfl rfl rfl

/-- C4 (counterexample): an explicit save whose text parses to a record
that fails schema validation does not return the parsed record — the
`ValidationError` handler calls `formatter(e)` without its required
`instance` argument, so a `TypeError` escapes `edit_json`. -/
theorem c4_save_invalid_crashes :
    parseC4 "bad" = some rBad ∧
    validC2 rBad = false ∧
    edit_json parseC4 validC2 (some "bad") = .crash ∧
    edit_json parseC4 validC2 (some "bad") ≠ .ret (some rBad) ∧
    edit_json parseC4 validC2 none = .ret none :=
  ⟨rfl, rfl, rfl, by decide, rfl⟩

/-- C4 (amended): cancel always returns nothing, regardless of validity;
an explicit save returns the parsed record when the text parses and
validates; a save whose text fails to parse returns nothing, the same as
cancel; a save whose text parses but fails validation raises a
`TypeError` out of the session (the error formatter is called without its
`instance` argument) instead of returning anything. -/
theorem c4_amended_edit_json (parse : String → Option Rec) (valid : Rec → Bool)
    (txt : String) (r : Rec) :
    edit_json parse valid none = .ret none ∧
    (parse txt = none → edit_json parse valid (some txt) = .ret none) ∧
    (parse txt = some r → valid r = true →
      edit_json parse valid (some txt) = .ret (some r)) ∧
    (parse txt = some r → valid r = false →
      edit_json parse valid (some txt) = .crash) := by
  refine ⟨rfl, ?_, ?_, ?_⟩
  · intro hp; simp [edit_json, hp]
  · intro hp hv; simp [edit_json, hp, hv]
  · intro hp hv; simp [edit_json, hp, hv]

/-- Witness for the amended C4, covering all four session endings. -/
theorem c4_amended_witness :
    edit_json parseC4 validC2 none = .ret none ∧
    edit_json parseC4 validC2 (some "nope") = .ret none ∧
    edit_json parseC4 validC1 (some "bad") = .ret (some rBad) ∧
    edit_json parseC4 validC2 (some "bad") = .crash :=
  ⟨(c4_amended_edit_json parseC4 validC2 "bad" rBad).1,
   (c4_amended_edit_json parseC4 validC2 "nope" rBad).2.1 rfl,
   (c4_amended_edit_json parseC4 validC1 "bad" rBad).2.2.1 rfl rfl,
   (c4_amended_edit_json parseC4 validC2 "bad" rBad).2.2.2 rfl rfl⟩

/-- C5: persistence is write-once.  An entry already stored under a `num`
survives any further sequence of pipeline iterations unchanged (the first
successful write wins), and a write attempt — which on the reachable path
means a post whose record parsed and validated — for an already-stored
`num` leaves the store untouched and continues normally: the
`FileExistsError` is suppressed, not surfaced as an application error. -/
theorem c5_store_write_once (valid : Rec → Bool) :
    (∀ (inputs : List PostInput) (store : Store) (n : Int) (e : Rec),
      store.lookup n = some e →
      (runPosts valid inputs store).lookup n = some e) ∧
    (∀ (store : Store) (p : PostInput) (r : Rec),
      p.parseResult = some r → valid r = true →
      (store.lookup p.num).isSome = true →
      runStep valid store p = .next store) := by
  constructor
  · exact runPosts_preserve valid
  · intro store p r hpr hv hp
    simp only [runStep, hpr]
    rw [if_pos hv]
    exact writeSection_existing store p.num (setNum r p.num) hp

/-- Witness for C5 at a concrete store and duplicate write attempt. -/
theorem c5_witness :
    (runPosts validC1 [inputDup] storeDup).lookup (3 : Int) = some recAlias ∧
    runStep validC1 storeDup inputDup = .next storeDup :=
  ⟨(c5_store_write_once validC1).1 [inputDup] storeDup 3 recAlias rfl,
   (c5_store_write_once validC1).2 storeDup inputDup recAlias rfl rfl rfl⟩

/-- C6: the retry loop of the rate limiter never surfaces a rate-limited
failure (any surfaced error lacks the `429` / `RESOURCE_EXHAUSTED`
indicator), a first failure without the indicator propagates immediately
with no backoff sleep, and a run of rate-limited failures is retried once
per failure with one unit of sleep each, surfacing nothing. -/
theorem c6_rate_limit_retry {α : Type} (outcomes : List (CallResult α)) :
    (∀ m, (retry429 outcomes).1 = some (.err m) → isRateLimitMsg m = false) ∧
    (∀ (m : String) (rest : List (CallResult α)),
      outcomes = .err m :: rest → isRateLimitMsg m = false →
      retry429 outcomes = (some (.err m), 0)) ∧
    (outcomes.all isRLErr = true → retry429 outcomes = (none, outcomes.length)) :=
  ⟨retry429_surfaced_not_limited outcomes,
   fun m rest he h => by rw [he]; exact retry429_first_error m rest h,
   retry429_all_limited outcomes⟩

/-- Witness for C6 at concrete outcome sequences. -/
theorem c6_retry_witness :
    isRateLimitMsg "boom" = false ∧
    retry429 [CallResult.err (α := Nat) "boom", .ok 1] = (some (.err "boom"), 0) ∧
    retry429 [CallResult.err (α := Nat) "HTTP 429", .err "RESOURCE_EXHAUSTED"] = (none, 2) :=
  ⟨(c6_rate_limit_retry [CallResult.err (α := Nat) "boom", .ok 1]).1 "boom" (by decide),
   (c6_rate_limit_retry [CallResult.err (α := Nat) "boom", .ok 1]).2.1 "boom" [.ok 1] rfl
     (by decide),
   (c6_rate_limit_retry [CallResult.err (α := Nat) "HTTP 429", .err "RESOURCE_EXHAUSTED"]).2.2
     (by decide)⟩

/-- C7: with `max_calls = 0` the decorator is the bypass: the wrapped
function object is returned untouched, and the start times of successive
invocations coincide with the no-delay reference model (each call starts at
its arrival instant, no wait and no sleep ever inserted). -/
theorem c7_disabled_limiter {α β : Type} (per : ℚ) (f : α → β)
    (events : List RLCall) (t0 : ℚ) :
    rate_limit 0 per f = Decorated.plain f ∧
    decoratedStarts (rate_limit 0 per f) events t0 = specNoDelayStarts events t0 := by
  constructor
  · simp [rate_limit]
  · simp [rate_limit, decoratedStarts]

/-- C9: a `regex://` reference resolves through `load_regex` to the
sub-schema `strWithPattern` built from the stripped contents of the named
pattern file; an unresolvable reference fails with a resolution error,
which is a different constructor from — and never equal to — the
structural-mismatch violation produced by a non-conforming instance. -/
theorem c9_regex_reference_resolution (files : String → Option String)
    (rxMatch : String → String → Bool) (uri contents : String) (v : JVal) :
    (files (uri.replace "regex://" "") = some contents →
      load_regex files uri = .ok (.strWithPattern contents.trim)) ∧
    (files (uri.replace "regex://" "") = none →
      validateMini files rxMatch (.ref uri) v = .error (.resolution uri)) ∧
    (∀ (pat : String) (n : Int),
      validateMini files rxMatch (.strWithPattern pat) (.jint n) =
        .error (.violation "type")) ∧
    (∀ (u m : String), VErr.resolution u ≠ VErr.violation m) := by
  refine ⟨?_, ?_, ?_, ?_⟩
  · intro h; simp [load_regex, h]
  · intro h; simp [validateMini, load_regex, h]
  · intro pat n; rfl
  · intro u m h; cases h

/-- Witness for C9 at a concrete filesystem and instance. -/
theorem c9_resolution_witness :
    load_regex (fun _ => some " ^u[0-9]+$ ") "regex://username.regex" =
      .ok (.strWithPattern " ^u[0-9]+$ ".trim) ∧
    validateMini (fun _ => none) (fun _ _ => true) (.ref "regex://missing") JVal.jnull =
      .error (.resolution "regex://missing") ∧
    validateMini (fun _ => none) (fun _ _ => true) (.strWithPattern "p") (.jint 3) =
      .error (.violation "type") ∧
    VErr.resolution "regex://missing" ≠ VErr.violation "type" :=
  ⟨(c9_regex_reference_resolution (fun _ => some " ^u[0-9]+$ ") (fun _ _ => true)
      "regex://username.regex" " ^u[0-9]+$ " JVal.jnull).1 rfl,
   (c9_regex_reference_resolution (fun _ => none) (fun _ _ => true)
      "regex://missing" "" JVal.jnull).2.1 rfl,
   (c9_regex_reference_resolution (fun _ => none) (fun _ _ => true)
      "regex://missing" "" JVal.jnull).2.2.1 "p" 3,
   (c9_regex_reference_resolution (fun _ => none) (fun _ _ => true)
      "regex://missing" "" JVal.jnull).2.2.2 "regex://missing" "type"⟩

/-- C10: every post yielded from the issues category comes from a raw item
whose `pull_request` attribute is falsy (and whose number is not ignored) —
pull requests are filtered out before classification, for every ignore set
and every feed content. -/
theorem c10_issue_posts_not_prs (strip : String → String) (ignore : List Int)
    (issues : List RawIssue) :
    ∀ p ∈ iter_issues strip ignore issues,
      ∃ i ∈ issues, i.pullRequest = false ∧ ignore.contains i.number = false ∧
        p = { title := i.title, num := i.number,
              text := strip (orBody i.body "(无内容)") } := by
  intro p hp
  rw [iter_issues, List.mem_filterMap] at hp
  obtain ⟨i, hi, h⟩ := hp
  by_cases h1 : i.pullRequest = true
  · rw [if_pos h1] at h
    exact Option.noConfusion h
  · rw [if_neg h1] at h
    by_cases h2 : ignore.contains i.number = true
    · rw [if_pos h2] at h
      exact Option.noConfusion h
    · rw [if_neg h2] at h
      refine ⟨i, hi, by simpa using h1, by simpa using h2, ?_⟩
      exact (Option.some_inj.mp h).symm

/-- Witness for C10 at a concrete one-issue feed. -/
theorem c10_filter_witness :
    ∃ i ∈ [rawIssue9],
      i.pullRequest = false ∧ ([] : List Int).contains i.number = false ∧
      ({ title := "T", num := 9, text := "b" } : Post) =
        { title := i.title, num := i.number, text := id (orBody i.body "(无内容)") } :=
  c10_issue_posts_not_prs id [] [rawIssue9]
    { title := "T", num := 9, text := "b" } (by decide)

/-! ## Sliding-window lemmas for the rate limiter -/

lemma dropOld_length_le (per now : ℚ) :
    ∀ l : List ℚ, (dropOld per now l).length ≤ l.length := by
  intro l
  induction l with
  | nil => simp [dropOld]
  | cons t rest ih =>
    rw [dropOld]
    by_cases h : per < now - t
    · simp only [h, if_true]
      exact le_trans ih (by simp)
    · simp [h]

lemma dropOld_subset (per now : ℚ) :
    ∀ (l : List ℚ) (x : ℚ), x ∈ dropOld per now l → x ∈ l := by
  intro l
  induction l with
  | nil => intro x hx; simp [dropOld] at hx
  | cons t rest ih =>
    intro x hx
    rw [dropOld] at hx
    by_cases h : per < now - t
    · simp only [h, if_true] at hx
      exact List.mem_cons_of_mem t (ih x hx)
    · simpa [h] using hx

lemma dropOld_countP (p : ℚ → Bool) (per now : ℚ)
    (hp : ∀ t, per < now - t → p t = false) :
    ∀ l : List ℚ, (dropOld per now l).countP p = l.countP p := by
  intro l
  induction l with
  | nil => rfl
  | cons t rest ih =>
    rw [dropOld]
    by_cases h : per < now - t
    · simp only [h, if_true]
      rw [ih, List.countP_cons, hp t h]
      simp
    · simp [h]

lemma dropOld_head (per now : ℚ) :
    ∀ l : List ℚ, dropOld per now l = [] ∨ ¬ per < now - (dropOld per now l).headD 0 := by
  intro l
  induction l with
  | nil => exact Or.inl rfl
  | cons t rest ih =>
    rw [dropOld]
    by_cases h : per < now - t
    · simpa [h] using ih
    · rw [if_neg h]
      simp only [List.headD_cons]
      exact Or.inr h

lemma dropOld_cons_drop {per now t : ℚ} {l : List ℚ} (h : per < now - t) :
    dropOld per now (t :: l) = dropOld per now l := by
  simp [dropOld, h]

lemma dropOld_cons_keep {per now t : ℚ} {l : List ℚ} (h : ¬ per < now - t) :
    dropOld per now (t :: l) = t :: l := by
  simp [dropOld, h]

lemma rlWake_sleep {per : ℚ} {cs : List ℚ} {now eps : ℚ}
    (h2 : 0 < per - (now - cs.headD 0)) :
    rlWake per cs now eps = now + (per - (now - cs.headD 0)) + eps := by
  rw [rlWake, if_pos h2]

lemma rlWake_nosleep {per : ℚ} {cs : List ℚ} {now eps : ℚ}
    (h2 : ¬ 0 < per - (now - cs.headD 0)) :
    rlWake per cs now eps = now := by
  rw [rlWake, if_neg h2]

lemma rlWake_ge {per : ℚ} {cs : List ℚ} {now eps : ℚ} (heps : 0 < eps) :
    now ≤ rlWake per cs now eps := by
  by_cases h2 : 0 < per - (now - cs.headD 0)
  · rw [rlWake_sleep h2]
    linarith
  · rw [rlWake_nosleep h2]

lemma rlStep_not_full {maxCalls : Nat} {per : ℚ} {calls : List ℚ} {now eps : ℚ}
    (h : ¬ maxCalls ≤ (dropOld per now calls).length) :
    rlStep maxCalls per calls now eps = (dropOld per now calls ++ [now], now) := by
  rw [rlStep, if_neg h]

lemma rlStep_full {maxCalls : Nat} {per : ℚ} {calls : List ℚ} {now eps : ℚ}
    (h : maxCalls ≤ (dropOld per now calls).length) :
    rlStep maxCalls per calls now eps =
      (dropOld per (rlWake per (dropOld per now calls) now eps) (dropOld per now calls) ++
        [rlWake per (dropOld per now calls) now eps],
       rlWake per (dropOld per now calls) now eps) := by
  rw [rlStep, if_pos h]

lemma rlStep_start_ge {maxCalls : Nat} {per : ℚ} {calls : List ℚ} {now eps : ℚ}
    (heps : 0 < eps) : now ≤ (rlStep maxCalls per calls now eps).2 := by
  by_cases h : maxCalls ≤ (dropOld per now calls).length
  · rw [rlStep_full h]
    exact rlWake_ge heps
  · rw [rlStep_not_full h]

lemma rlRun_gt (maxCalls : Nat) (per : ℚ) :
    ∀ (events : List RLCall) (calls : List ℚ) (L : ℚ),
      (∀ c ∈ events, 0 < c.delta ∧ 0 < c.eps) →
      ∀ s ∈ rlRun maxCalls per events calls L, L < s := by
  intro events
  induction events with
  | nil => intro calls L _ s hs; simp [rlRun] at hs
  | cons c rest ih =>
    intro calls L hev s hs
    have hδ : 0 < c.delta := (hev c (List.mem_cons_self c rest)).1
    have hε : 0 < c.eps := (hev c (List.mem_cons_self c rest)).2
    have hstart : L < (rlStep maxCalls per calls (L + c.delta) c.eps).2 :=
      lt_of_lt_of_le (by linarith) (rlStep_start_ge hε)
    simp only [rlRun] at hs
    rcases List.mem_cons.mp hs with rfl | hs'
    · exact hstart
    · exact lt_trans hstart
        (ih _ _ (fun d hd => hev d (List.mem_cons_of_mem c hd)) s hs')

lemma inW_iff {w per s : ℚ} : inW w per s = true ↔ w < s ∧ s ≤ w + per := by
  simp [inW]

lemma deque_countP_le (maxCalls : Nat) (per w L : ℚ) (deque : List ℚ)
    (h1 : deque.length ≤ maxCalls + 1)
    (h2 : maxCalls + 1 ≤ deque.length → deque.headD 0 + per ≤ L)
    (h4 : deque = [] ∨ ∃ pre, deque = pre ++ [L]) :
    deque.countP (fun s => inW w per s) ≤ maxCalls := by
  rcases h4 with rfl | ⟨pre, rfl⟩
  · simp
  · rw [List.countP_append]
    by_cases hL : inW w per L = true
    case neg =>
      have hz : List.countP (fun s => inW w per s) [L] = 0 := by
        simp [List.countP_cons, hL]
      rw [hz]
      have hp := List.countP_le_length (fun s => inW w per s) (l := pre)
      have hlen : pre.length ≤ maxCalls := by
        rw [List.length_append] at h1
        simp at h1
        omega
      omega
    case pos =>
      have hwL : w < L ∧ L ≤ w + per := inW_iff.mp hL
      by_cases hlen : maxCalls + 1 ≤ (pre ++ [L]).length
      · have hhead := h2 hlen
        rcases pre with _ | ⟨h0, pre2⟩
        · simp only [List.nil_append, List.headD_cons] at hhead
          have : (0 : ℚ) < per := by linarith [hwL.1, hwL.2]
          linarith [hwL.1, hwL.2]
        · simp only [List.cons_append, List.headD_cons] at hhead
          have hh0 : inW w per h0 = false := by
            by_contra hc
            rw [Bool.not_eq_false] at hc
            have := inW_iff.mp hc
            linarith [this.1, this.2, hwL.1, hwL.2]
          have hc2 := List.countP_le_length (fun s => inW w per s) (l := pre2)
          have hl1 : List.countP (fun s => inW w per s) [L] = 1 := by
            simp [List.countP_cons, hL]
          have hcp : List.countP (fun s => inW w per s) (h0 :: pre2) =
              List.countP (fun s => inW w per s) pre2 := by
            rw [List.countP_cons, hh0]
            simp
          rw [hcp]
          rw [List.length_append, List.length_cons, List.length_cons] at hlen h1
          simp at hlen h1
          omega
      · have hle : (pre ++ [L]).length ≤ maxCalls := by omega
        have := List.countP_le_length (fun s => inW w per s) (l := pre ++ [L])
        rw [List.countP_append] at this
        omega

lemma inW_false_of_low {w per t : ℚ} (h : t ≤ w) : inW w per t = false := by
  rw [Bool.eq_false_iff]
  intro hc
  obtain ⟨ha, _⟩ := inW_iff.mp hc
  linarith

lemma inW_false_of_high {w per t : ℚ} (h : w + per < t) : inW w per t = false := by
  rw [Bool.eq_false_iff]
  intro hc
  obtain ⟨_, hb⟩ := inW_iff.mp hc
  linarith

/-- Invariant induction: starting from a deque that (a) carries at most one
extra timestamp, (b) when overfull has its head a full window before the
last recorded start, (c) holds only timestamps at or before the last start
which is its final element, the number of recorded starts falling inside
any half-open window of length `per`, plus the matching deque timestamps,
never exceeds `maxCalls`. -/
lemma rlRun_window (maxCalls : Nat) (per w : ℚ) (hmax : 0 < maxCalls) :
    ∀ (events : List RLCall) (deque : List ℚ) (L : ℚ),
      (∀ c ∈ events, 0 < c.delta ∧ 0 < c.eps) →
      deque.length ≤ maxCalls + 1 →
      (maxCalls + 1 ≤ deque.length → deque.headD 0 + per ≤ L) →
      (∀ t ∈ deque, t ≤ L) →
      (deque = [] ∨ ∃ pre, deque = pre ++ [L]) →
      (rlRun maxCalls per events deque L).countP (fun s => inW w per s) +
        deque.countP (fun s => inW w per s) ≤ maxCalls := by
  intro events
  induction events with
  | nil =>
    intro deque L _ h1 h2 _ h4
    simpa [rlRun] using deque_countP_le maxCalls per w L deque h1 h2 h4
  | cons c rest ih =>
    intro deque L hev h1 h2 h3 h4
    have hδ : 0 < c.delta := (hev c (List.mem_cons_self c rest)).1
    have hε : 0 < c.eps := (hev c (List.mem_cons_self c rest)).2
    have hevr : ∀ d ∈ rest, 0 < d.delta ∧ 0 < d.eps :=
      fun d hd => hev d (List.mem_cons_of_mem c hd)
    have hLnow : L < L + c.delta := by linarith
    have hcs_len : (dropOld per (L + c.delta) deque).length ≤ maxCalls := by
      by_cases hov : maxCalls + 1 ≤ deque.length
      · have hhead := h2 hov
        rcases deque with _ | ⟨h0, dq⟩
        · exact absurd hov (by simp)
        · simp only [List.headD_cons] at hhead
          have hdr : per < (L + c.delta) - h0 := by linarith
          rw [dropOld_cons_drop hdr]
          have hlen := dropOld_length_le per (L + c.delta) dq
          simp only [List.length_cons] at h1
          omega
      · have := dropOld_length_le per (L + c.delta) deque
        omega
    simp only [rlRun]
    by_cases hfull : maxCalls ≤ (dropOld per (L + c.delta) deque).length
    case neg =>
      rw [rlStep_not_full hfull]
      dsimp only
      have hinv1 : (dropOld per (L + c.delta) deque ++ [L + c.delta]).length ≤
          maxCalls + 1 := by
        rw [List.length_append, List.length_singleton]
        omega
      have hinv2 : maxCalls + 1 ≤
            (dropOld per (L + c.delta) deque ++ [L + c.delta]).length →
          (dropOld per (L + c.delta) deque ++ [L + c.delta]).headD 0 + per ≤
            L + c.delta := by
        intro habs
        rw [List.length_append, List.length_singleton] at habs
        omega
      have hinv3 : ∀ t ∈ dropOld per (L + c.delta) deque ++ [L + c.delta],
          t ≤ L + c.delta := by
        intro t ht
        rcases List.mem_append.mp ht with hmem | hmem
        · exact le_trans (h3 t (dropOld_subset per (L + c.delta) deque t hmem))
            (le_of_lt hLnow)
        · rw [List.mem_singleton.mp hmem]
      have hIH := ih (dropOld per (L + c.delta) deque ++ [L + c.delta]) (L + c.delta)
        hevr hinv1 hinv2 hinv3 (Or.inr ⟨_, rfl⟩)
      rw [List.countP_append] at hIH
      rw [List.countP_cons]
      by_cases hnear : L + c.delta ≤ w + per
      case pos =>
        have hdeq : (dropOld per (L + c.delta) deque).countP (fun s => inW w per s) =
            deque.countP (fun s => inW w per s) := by
          refine dropOld_countP _ per (L + c.delta) ?_ deque
          intro t ht
          exact inW_false_of_low (by linarith)
        rw [hdeq] at hIH
        by_cases hpn : inW w per (L + c.delta) = true
        · simp only [List.countP_cons, List.countP_nil, hpn, if_true] at hIH ⊢
          omega
        · simp only [List.countP_cons, List.countP_nil,
            Bool.eq_false_iff.mpr hpn] at hIH ⊢
          simp at hIH ⊢
          omega
      case neg =>
        have hrun0 : (rlRun maxCalls per rest
            (dropOld per (L + c.delta) deque ++ [L + c.delta]) (L + c.delta)).countP
              (fun s => inW w per s) = 0 := by
          rw [List.countP_eq_zero]
          intro s hs
          have hgt := rlRun_gt maxCalls per rest _ _ hevr s hs
          simp only [Bool.not_eq_true]
          exact inW_false_of_high (by linarith)
        have hpn : inW w per (L + c.delta) = false :=
          inW_false_of_high (by linarith)
        have hdle := deque_countP_le maxCalls per w L deque h1 h2 h4
        rw [hrun0, hpn]
        simp only [Bool.false_eq_true, if_false]
        omega
    case pos =>
      have hne : dropOld per (L + c.delta) deque ≠ [] := by
        intro h0
        rw [h0] at hfull
        simp at hfull
        omega
      rcases hcseq : dropOld per (L + c.delta) deque with _ | ⟨ch, ct⟩
      · exact absurd hcseq hne
      have hkeep : ¬ per < (L + c.delta) - ch := by
        rcases dropOld_head per (L + c.delta) deque with h0 | h0
        · exact absurd h0 hne
        · rw [hcseq] at h0
          simpa using h0
      have hct_len : ct.length + 1 ≤ maxCalls := by
        have := hcs_len
        rw [hcseq] at this
        simpa using this
      have hsubdq : ∀ t ∈ ch :: ct, t ≤ L := by
        intro t ht
        refine h3 t (dropOld_subset per (L + c.delta) deque t ?_)
        rw [hcseq]
        exact ht
      rw [rlStep_full hfull, hcseq]
      dsimp only
      by_cases hslp : 0 < per - ((L + c.delta) - (ch :: ct).headD 0)
      case pos =>
        rw [rlWake_sleep hslp]
        simp only [List.headD_cons] at hslp ⊢
        have hs'now : L + c.delta < L + c.delta + (per - (L + c.delta - ch)) + c.eps := by
          linarith
        have hdr2 : per < (L + c.delta + (per - (L + c.delta - ch)) + c.eps) - ch := by
          linarith
        rw [dropOld_cons_drop hdr2]
        have hinv1 : (dropOld per (L + c.delta + (per - (L + c.delta - ch)) + c.eps) ct ++
            [L + c.delta + (per - (L + c.delta - ch)) + c.eps]).length ≤ maxCalls + 1 := by
          rw [List.length_append, List.length_singleton]
          have := dropOld_length_le per (L + c.delta + (per - (L + c.delta - ch)) + c.eps) ct
          omega
        have hinv2 : maxCalls + 1 ≤ (dropOld per
              (L + c.delta + (per - (L + c.delta - ch)) + c.eps) ct ++
              [L + c.delta + (per - (L + c.delta - ch)) + c.eps]).length →
            (dropOld per (L + c.delta + (per - (L + c.delta - ch)) + c.eps) ct ++
              [L + c.delta + (per - (L + c.delta - ch)) + c.eps]).headD 0 + per ≤
              L + c.delta + (per - (L + c.delta - ch)) + c.eps := by
          intro habs
          exfalso
          rw [List.length_append, List.length_singleton] at habs
          have := dropOld_length_le per (L + c.delta + (per - (L + c.delta - ch)) + c.eps) ct
          omega
        have hinv3 : ∀ t ∈ dropOld per (L + c.delta + (per - (L + c.delta - ch)) + c.eps) ct ++
            [L + c.delta + (per - (L + c.delta - ch)) + c.eps],
            t ≤ L + c.delta + (per - (L + c.delta - ch)) + c.eps := by
          intro t ht
          rcases List.mem_append.mp ht with hmem | hmem
          · have htct : t ∈ ch :: ct :=
              List.mem_cons_of_mem ch
                (dropOld_subset per (L + c.delta + (per - (L + c.delta - ch)) + c.eps) ct t hmem)
            have := hsubdq t htct
            linarith
          · rw [List.mem_singleton.mp hmem]
        have hIH := ih
          (dropOld per (L + c.delta + (per - (L + c.delta - ch)) + c.eps) ct ++
            [L + c.delta + (per - (L + c.delta - ch)) + c.eps])
          (L + c.delta + (per - (L + c.delta - ch)) + c.eps)
          hevr hinv1 hinv2 hinv3 (Or.inr ⟨_, rfl⟩)
        rw [List.countP_append] at hIH
        rw [List.countP_cons]
        by_cases hnear : L + c.delta + (per - (L + c.delta - ch)) + c.eps ≤ w + per
        case pos =>
          have hdeq1 : (dropOld per (L + c.delta) deque).countP (fun s => inW w per s) =
              deque.countP (fun s => inW w per s) := by
            refine dropOld_countP _ per (L + c.delta) ?_ deque
            intro t ht
            exact inW_false_of_low (by linarith)
          have hdeq2 : (dropOld per (L + c.delta + (per - (L + c.delta - ch)) + c.eps)
              (ch :: ct)).countP (fun s => inW w per s) =
              (ch :: ct).countP (fun s => inW w per s) := by
            refine dropOld_countP _ per _ ?_ (ch :: ct)
            intro t ht
            exact inW_false_of_low (by linarith)
          rw [dropOld_cons_drop hdr2] at hdeq2
          have hdeq : deque.countP (fun s => inW w per s) =
              (dropOld per (L + c.delta + (per - (L + c.delta - ch)) + c.eps) ct).countP
                (fun s => inW w per s) := by
            rw [← hdeq1, hcseq, ← hdeq2]
          rw [hdeq]
          by_cases hpn : inW w per (L + c.delta + (per - (L + c.delta - ch)) + c.eps) = true
          · simp only [List.countP_cons, List.countP_nil, hpn, if_true] at hIH ⊢
            omega
          · simp only [List.countP_cons, List.countP_nil,
              Bool.eq_false_iff.mpr hpn] at hIH ⊢
            simp at hIH ⊢
            omega
        case neg =>
          have hrun0 : (rlRun maxCalls per rest
              (dropOld per (L + c.delta + (per - (L + c.delta - ch)) + c.eps) ct ++
                [L + c.delta + (per - (L + c.delta - ch)) + c.eps])
              (L + c.delta + (per - (L + c.delta - ch)) + c.eps)).countP
                (fun s => inW w per s) = 0 := by
            rw [List.countP_eq_zero]
            intro s hs
            have hgt := rlRun_gt maxCalls per rest _ _ hevr s hs
            simp only [Bool.not_eq_true]
            exact inW_false_of_high (by linarith)
          have hpn : inW w per (L + c.delta + (per - (L + c.delta - ch)) + c.eps) = false :=
            inW_false_of_high (by linarith)
          have hdle := deque_countP_le maxCalls per w L deque h1 h2 h4
          rw [hrun0, hpn]
          simp only [Bool.false_eq_true, if_false]
          omega
      case neg =>
        rw [rlWake_nosleep hslp]
        simp only [List.headD_cons] at hslp
        have heqb : L + c.delta - ch = per := by
          have h1' : L + c.delta - ch ≤ per := by simpa using hkeep
          have h2' : per ≤ L + c.delta - ch := by linarith
          linarith
        rw [dropOld_cons_keep hkeep]
        have hinv1 : ((ch :: ct) ++ [L + c.delta]).length ≤ maxCalls + 1 := by
          rw [List.length_append, List.length_singleton]
          simp only [List.length_cons]
          omega
        have hinv2 : maxCalls + 1 ≤ ((ch :: ct) ++ [L + c.delta]).length →
            ((ch :: ct) ++ [L + c.delta]).headD 0 + per ≤ L + c.delta := by
          intro _
          simp only [List.cons_append, List.headD_cons]
          linarith
        have hinv3 : ∀ t ∈ (ch :: ct) ++ [L + c.delta], t ≤ L + c.delta := by
          intro t ht
          rcases List.mem_append.mp ht with hmem | hmem
          · exact le_trans (hsubdq t hmem) (le_of_lt hLnow)
          · rw [List.mem_singleton.mp hmem]
        have hIH := ih ((ch :: ct) ++ [L + c.delta]) (L + c.delta)
          hevr hinv1 hinv2 hinv3 (Or.inr ⟨_, rfl⟩)
        rw [List.countP_append] at hIH
        rw [List.countP_cons]
        by_cases hnear : L + c.delta ≤ w + per
        case pos =>
          have hdeq1 : (dropOld per (L + c.delta) deque).countP (fun s => inW w per s) =
              deque.countP (fun s => inW w per s) := by
            refine dropOld_countP _ per (L + c.delta) ?_ deque
            intro t ht
            exact inW_false_of_low (by linarith)
          have hdeq : deque.countP (fun s => inW w per s) =
              (ch :: ct).countP (fun s => inW w per s) := by
            rw [← hdeq1, hcseq]
          rw [hdeq]
          by_cases hpn : inW w per (L + c.delta) = true
          · simp only [List.countP_cons, List.countP_nil, hpn, if_true] at hIH ⊢
            omega
          · simp only [List.countP_cons, List.countP_nil,
              Bool.eq_false_iff.mpr hpn] at hIH ⊢
            simp at hIH ⊢
            omega
        case neg =>
          have hrun0 : (rlRun maxCalls per rest
              ((ch :: ct) ++ [L + c.delta]) (L + c.delta)).countP
                (fun s => inW w per s) = 0 := by
            rw [List.countP_eq_zero]
            intro s hs
            have hgt := rlRun_gt maxCalls per rest _ _ hevr s hs
            simp only [Bool.not_eq_true]
            exact inW_false_of_high (by linarith)
          have hpn : inW w per (L + c.delta) = false :=
            inW_false_of_high (by linarith)
          have hdle := deque_countP_le maxCalls per w L deque h1 h2 h4
          rw [hrun0, hpn]
          simp only [Bool.false_eq_true, if_false]
          omega

/-- C8: for every configuration with `max_calls > 0`, at most `max_calls`
wrapped invocations start inside any sliding window of length `per_seconds`
(windows taken half-open, `w < s ≤ w + per`).  The timing model is exact
rational time where successive clock reads strictly increase
(`0 < delta`) and every sleep wakes strictly after its deadline
(`0 < eps`), as in any real execution; before each call expired timestamps
are dropped, and a full window blocks the caller until the oldest
timestamp exits before the new start is recorded. -/
theorem c8_sliding_window_bound (maxCalls : Nat) (per t0 w : ℚ)
    (events : List RLCall) (hmax : 0 < maxCalls)
    (hev : ∀ c ∈ events, 0 < c.delta ∧ 0 < c.eps) :
    (rlRun maxCalls per events [] t0).countP (fun s => inW w per s) ≤ maxCalls := by
  have h := rlRun_window maxCalls per w hmax events [] t0 hev (by simp)
    (by intro habs; simp at habs) (by intro t ht; simp at ht) (Or.inl rfl)
  simpa using h

/-- Witness for C8 at a concrete configuration and call sequence. -/
theorem c8_window_witness :
    (rlRun 1 1 [⟨1, 1⟩, ⟨1, 1⟩, ⟨1, 1⟩] [] 0).countP (fun s => inW 0 1 s) ≤ 1 :=
  c8_sliding_window_bound 1 1 0 0 [⟨1, 1⟩, ⟨1, 1⟩, ⟨1, 1⟩] (by decide) (by decide)

end IssueTool
